import Mathlib

/-!
Shallow embedding of the data-parallel algorithms of the `web-learning`
rust-wasm examples, together with proofs of the published properties.

Sources embedded here:
- `src/examples/rust-wasm/src/bin/parallel-processing.rs`
  (parallel sum, `partition`, `parallel_quicksort`, `avoid_false_sharing`)
- `src/examples/rust-wasm/src/bin/wasm-integration.rs`
  (`parallel_matrix_multiply`, `parallel_matrix_transpose`,
   `parallel_grayscale_conversion`, `parallel_brightness_adjustment`)
- `src/examples/rust-wasm/wasm-rayon-integration.example.rs`
  (`WasmImageProcessor::to_grayscale`, `WasmImageProcessor::adjust_brightness`)
- `src/examples/rust-wasm/lib.example.rs` (`WasmModule::transform_data`)

Modelling conventions: machine integers are `Int`/`Nat` (with explicit
`% 2 ^ 64` where the Rust code computes in wrapping `u64`); `f32`/`f64`
values are embedded as exact rationals `ℚ`, with the saturating Rust
float-to-`u8` cast made explicit; fallible Rust functions returning
`Result` become `Except String`; rayon data-parallel skeletons become
explicit chunk decompositions followed by a sequential combine, which is
the (deterministic) value-level semantics of the corresponding rayon
combinators.
-/

/-- Sequential left-fold sum, modelling `data.iter().sum::<i32>()` in
`basic_parallel_examples` (parallel-processing.rs line 105).  Machine
integers are modelled as unbounded `Int`; the claim compares two sums
computed in the same arithmetic, so the wrapping behaviour of `i32`
cancels out. -/
def seqSum (data : List Int) : Int := data.foldl (· + ·) 0

/-- Models `data.par_iter().sum()` (parallel-processing.rs line 109 and
`WasmParallelProcessor::parallel_sum`): the rayon scheduler splits the
input into some ordered decomposition of contiguous chunks -- the
decomposition depends on worker-pool size and splitting strategy and is
left arbitrary here -- sums each chunk sequentially, and folds the
partial sums together. -/
def parSum (chunks : List (List Int)) : Int := (chunks.map seqSum).foldl (· + ·) 0

/-- Models `WasmModule::transform_data` (lib.example.rs lines 100-112):
reverse the byte vector, then XOR every byte with `0xAA`.  Bytes are
modelled as `Nat`; XOR on values below 256 never leaves that range. -/
def transform_data (data : List Nat) : List Nat :=
  data.reverse.map (fun byte => byte ^^^ 0xAA)

/-- Value of an `i32` after the Rust cast `x as u64` (sign-extension,
i.e. the representative of `x` modulo `2 ^ 64`). -/
def asU64 (x : Int) : Nat := (x % (2 ^ 64 : Int)).toNat

/-- Wrapping `u64` sum `chunk.iter().map(|&x| x as u64).sum()` used both
for the per-chunk local sums and for the reference sequential sum in
`avoid_false_sharing` (parallel-processing.rs line 425). -/
def sumU64 (data : List Int) : Nat :=
  data.foldl (fun s x => (s + asU64 x) % 2 ^ 64) 0

/-- Chunk-splitting worker with an explicit fuel argument standing in
for the termination measure (each step consumes at least the head
element, so `l.length` fuel always suffices and the fuel-exhaustion
branch is unreachable from `chunksOf`).  Structural recursion on the
fuel keeps the function kernel-reducible. -/
def chunksOfFuel : Nat → Nat → List Int → List (List Int)
  | _, _, [] => []
  | 0, _, l => [l]
  | fuel + 1, c, x :: xs => (x :: xs.take (c - 1)) :: chunksOfFuel fuel c (xs.drop (c - 1))

/-- Models `slice::par_chunks(c)` for `c ≥ 1`: split the list into
contiguous chunks of length `c`, the last chunk possibly shorter.  The
head element is peeled off first, so for `c ≥ 1` each step is exactly
`take c` followed by recursion on `drop c`. -/
def chunksOf (c : Nat) (l : List Int) : List (List Int) :=
  chunksOfFuel l.length c l

/-- Models `avoid_false_sharing` (parallel-processing.rs lines 412-435):
one `PaddedCounter` slot per worker, `chunk_size = max(1, len / num_threads)`,
then every chunk `store`s (not adds) its local `u64` sum into slot
`thread_id % num_threads`, and finally all slots are summed.  The
parallel `for_each` is serialised in chunk order, so a later chunk that
hits an already-used slot overwrites it (in the real program the two
racing `store`s land in either order; both lose one of the two values). -/
def avoid_false_sharing (data : List Int) (num_threads : Nat) : Nat :=
  let counters : List Nat := List.replicate num_threads 0
  let chunk_size := max 1 (data.length / num_threads)
  let chunks := chunksOf chunk_size data
  let final := chunks.enum.foldl
    (fun cs tc => cs.set (tc.1 % num_threads) (sumU64 tc.2)) counters
  final.foldl (fun s v => (s + v) % 2 ^ 64) 0

/-- The accumulator slot written by each enumerated chunk of
`avoid_false_sharing`: chunk `thread_id` writes slot
`thread_id % num_threads`. -/
def slotAssignments (data : List Int) (num_threads : Nat) : List Nat :=
  (List.range (chunksOf (max 1 (data.length / num_threads)) data).length).map
    (· % num_threads)

/-- Models `parallel_matrix_multiply` (wasm-integration.rs lines 146-178)
and the identical `WasmMatrixProcessor::multiply_matrices`.  `f64`
entries are embedded as exact rationals.  The output buffer is chunked
by rows (`par_chunks_mut(b_cols)`), so output index `idx` lies in row
`idx / b_cols`, column `idx % b_cols`, and holds the dot product over
`k < a_cols`.  Both dimension checks happen before the output vector is
built, exactly as in the source.  The `Except.ok` branch is the value
semantics on the non-panicking domain `b_cols ≥ 1` only: an input with
`b_cols = 0` that passes both checks (e.g. a 1-by-3 matrix times a
3-by-0 matrix) makes the Rust code panic inside `par_chunks_mut(0)`
instead of returning, so nothing is asserted about it below. -/
def parallel_matrix_multiply (a : List ℚ) (a_rows a_cols : Nat)
    (b : List ℚ) (b_rows b_cols : Nat) : Except String (List ℚ) :=
  if a_cols ≠ b_rows then
    Except.error "Matrix dimensions incompatible for multiplication"
  else if a.length ≠ a_rows * a_cols ∨ b.length ≠ b_rows * b_cols then
    Except.error "Matrix data length does not match dimensions"
  else
    Except.ok ((List.range (a_rows * b_cols)).map (fun idx =>
      (List.range a_cols).foldl
        (fun sum k =>
          sum + a.getD ((idx / b_cols) * a_cols + k) 0 *
            b.getD (k * b_cols + idx % b_cols) 0) 0))

/-- Models `parallel_matrix_transpose` (wasm-integration.rs lines
180-193): the `rows * cols` output buffer is chunked into `cols` blocks
of length `rows` (`par_chunks_mut(rows)`); block `j`, entry `i` receives
`matrix[i * cols + j]`.  Output index `idx` therefore holds
`matrix[(idx % rows) * cols + idx / rows]`.  Defined on `rows ≥ 1`
inputs; `rows = 0` makes the Rust code panic inside `par_chunks_mut(0)`. -/
def parallel_matrix_transpose (matrix : List ℚ) (rows cols : Nat) : List ℚ :=
  (List.range (rows * cols)).map (fun idx =>
    matrix.getD ((idx % rows) * cols + idx / rows) 0)

/-- Models the saturating Rust cast `x as u8` applied to an `f32` value,
with the `f32` embedded as an exact rational: truncate toward zero and
clamp into `[0, 255]` (the arguments in this development are always
nonnegative, so truncation is `Int.floor`). -/
def f32_as_u8 (x : ℚ) : Nat := min 255 (Int.toNat ⌊x⌋)

/-- Models `parallel_grayscale_conversion` (wasm-integration.rs lines
236-251): walk the buffer in complete RGBA groups of 4 bytes
(`par_chunks_exact_mut(4)`), replace R, G, B by the luminance
`(0.299 * r + 0.587 * g + 0.114 * b) as u8` and keep the alpha byte.
`chunks_exact` leaves a trailing remainder of fewer than 4 bytes
untouched -- there is no input-length check in this function.  The same
per-pixel transform is the body of `WasmImageProcessor::to_grayscale`. -/
def parallel_grayscale_conversion : List Nat → List Nat
  | r :: g :: b :: a :: rest =>
    let gray := f32_as_u8 (0.299 * (r : ℚ) + 0.587 * (g : ℚ) + 0.114 * (b : ℚ))
    gray :: gray :: gray :: a :: parallel_grayscale_conversion rest
  | rest => rest

/-- Models `WasmImageProcessor::to_grayscale` (wasm-rayon-integration
.example.rs lines 276-323): reject buffers whose length is not divisible
by 4, otherwise produce a fresh buffer with every pixel grayscaled by the
same luminance formula as `parallel_grayscale_conversion`. -/
def to_grayscale (rgba_data : List Nat) : Except String (List Nat) :=
  if rgba_data.length % 4 ≠ 0 then
    Except.error "RGBA data length must be divisible by 4"
  else
    Except.ok (parallel_grayscale_conversion rgba_data)

/-- One RGB channel of `parallel_brightness_adjustment`
(wasm-integration.rs line 257):
`(*pixel_val as f32 * brightness).clamp(0.0, 255.0) as u8`. -/
def adjust_channel (brightness : ℚ) (v : Nat) : Nat :=
  f32_as_u8 (min 255 (max 0 ((v : ℚ) * brightness)))

/-- Models `parallel_brightness_adjustment` (wasm-integration.rs lines
253-262): per complete RGBA group, scale-and-clamp the three RGB
channels and keep the alpha byte; `par_chunks_exact_mut(4)` leaves any
trailing remainder untouched and there is no input-length check. -/
def parallel_brightness_adjustment (brightness : ℚ) : List Nat → List Nat
  | r :: g :: b :: a :: rest =>
    adjust_channel brightness r :: adjust_channel brightness g ::
      adjust_channel brightness b :: a ::
      parallel_brightness_adjustment brightness rest
  | rest => rest

/-- One RGB channel of `WasmImageProcessor::adjust_brightness`
(wasm-rayon-integration.example.rs line 342):
`(src_pixel[i] as f32 * brightness).min(255.0).max(0.0) as u8`. -/
def adjust_channel_minmax (brightness : ℚ) (v : Nat) : Nat :=
  f32_as_u8 (max 0 (min 255 ((v : ℚ) * brightness)))

/-- Per-pixel loop of `WasmImageProcessor::adjust_brightness`. -/
def adjust_brightness_pixels (brightness : ℚ) : List Nat → List Nat
  | r :: g :: b :: a :: rest =>
    adjust_channel_minmax brightness r :: adjust_channel_minmax brightness g ::
      adjust_channel_minmax brightness b :: a ::
      adjust_brightness_pixels brightness rest
  | rest => rest

/-- Models `WasmImageProcessor::adjust_brightness` (wasm-rayon-integration
.example.rs lines 327-360): reject buffers whose length is not divisible
by 4, otherwise brighten every pixel into a fresh buffer. -/
def adjust_brightness (brightness : ℚ) (rgba_data : List Nat) :
    Except String (List Nat) :=
  if rgba_data.length % 4 ≠ 0 then
    Except.error "RGBA data length must be divisible by 4"
  else
    Except.ok (adjust_brightness_pixels brightness rgba_data)

/-- Models `slice::swap(i, j)` on a list of `Int` (in-range uses only). -/
def listSwap (l : List Int) (i j : Nat) : List Int :=
  (l.set i (l.getD j 0)).set j (l.getD i 0)

/-- The Lomuto scan loop of `partition` (parallel-processing.rs lines
351-357): `for i in 0..len-1 { if data[i] <= data[len-1]
{ data.swap(i, store_index); store_index += 1 } }`.  The pivot sits at
index `len - 1` and is re-read from there on every comparison, exactly
as in the source. -/
def lomutoLoop (data : List Int) (i store : Nat) : List Int × Nat :=
  if _h : i < data.length - 1 then
    if data.getD i 0 ≤ data.getD (data.length - 1) 0 then
      lomutoLoop (listSwap data i store) (i + 1) (store + 1)
    else
      lomutoLoop data (i + 1) store
  else
    (data, store)
termination_by data.length - 1 - i
decreasing_by
  · simp only [listSwap, List.length_set]; omega
  · omega

/-- Models `partition` (parallel-processing.rs lines 346-360): swap the
middle element (`pivot_index = len / 2`) to the last position, run the
Lomuto scan, then swap the pivot into the store index and return it. -/
def partition (data : List Int) : List Int × Nat :=
  let len := data.length
  let pivot_index := len / 2
  let d := listSwap data pivot_index (len - 1)
  let r := lomutoLoop d 0 0
  (listSwap r.1 r.2 (len - 1), r.2)

/-- Models `slice::sort_unstable()` extensionally: on a totally ordered
element type its output is the unique sorted permutation of the input,
here computed by `List.mergeSort`.  ("Unstable" only licenses reordering
of equal elements, which is unobservable for `Int` values.) -/
def sort_unstable (data : List Int) : List Int :=
  data.mergeSort (fun a b => a ≤ b)

/-- Recursion skeleton of `parallel_quicksort` (parallel-processing.rs
lines 324-344) with an explicit fuel argument standing in for the
termination measure: inputs of length at most `SEQUENTIAL_THRESHOLD =
1000` are sorted sequentially by `sort_unstable`; longer inputs are
partitioned and the two sides (excluding the pivot slot) are sorted
recursively -- `rayon::join` runs them on disjoint subslices, so the
value semantics is the concatenation below.  `data.length` fuel always
suffices because `partition` returns an index strictly inside the slice
(proved below), so the fuel-exhaustion branch is unreachable from
`parallel_quicksort`. -/
def parallel_quicksortFuel : Nat → List Int → List Int
  | 0, data => data
  | fuel + 1, data =>
    if data.length ≤ 1000 then sort_unstable data
    else if data.length ≤ 1 then data
    else
      let p := (partition data).2
      let arr := (partition data).1
      parallel_quicksortFuel fuel (arr.take p) ++
        arr.getD p 0 :: parallel_quicksortFuel fuel (arr.drop (p + 1))

/-- Models `parallel_quicksort` (parallel-processing.rs lines 324-344). -/
def parallel_quicksort (data : List Int) : List Int :=
  parallel_quicksortFuel data.length data

/-- The sequential left fold of `(· + ·)` computes the list sum. -/
theorem seqSum_eq_sum (l : List Int) : seqSum l = l.sum :=
  List.sum_eq_foldl.symm

/-- C1: for every non-empty integer sequence, the parallel sum over any
chunk decomposition of the data (hence for any worker-pool size 1, 2 or
N and any chunking strategy) equals the sequential left-fold sum. -/
theorem claim_C1_parallel_sum (data : List Int) (chunks : List (List Int))
    (hne : data ≠ []) (hchunks : chunks.flatten = data) :
    parSum chunks = seqSum data := by
  subst hchunks
  rw [parSum, seqSum_eq_sum, ← List.sum_eq_foldl,
    List.map_congr_left (fun x _ => seqSum_eq_sum x), ← List.sum_flatten]

/-- Witness for C1 at the concrete data `[1, 2, 3]` split into the
chunks `[1]` and `[2, 3]`. -/
theorem claim_C1_parallel_sum_witness :
    parSum [[1], [2, 3]] = seqSum [1, 2, 3] :=
  claim_C1_parallel_sum [1, 2, 3] [[1], [2, 3]] (by decide) (by decide)

/-- C10: the byte transformation of `WasmModule.transform_data` (reverse,
then XOR with `0xAA`) is an involution and preserves the length. -/
theorem claim_C10_transform_involution (data : List Nat) :
    transform_data (transform_data data) = data ∧
    (transform_data data).length = data.length := by
  constructor
  · have h : ∀ b : Nat, (b ^^^ 170) ^^^ 170 = b := fun b => by
      rw [Nat.xor_assoc, Nat.xor_self, Nat.xor_zero]
    simp [transform_data, List.map_reverse, List.map_map, Function.comp_def, h]
  · simp [transform_data]

/-- C9 (code bug): with ten elements equal to 1 and 3 worker threads,
`avoid_false_sharing` computes `chunk_size = max 1 (10 / 3) = 3` and
hence 4 chunks, so chunk 3 writes accumulator slot `3 % 3 = 0` already
written by chunk 0 (the slot assignment list `[0, 1, 2, 0]` has a
duplicate), and the overwriting `store` loses chunk 0: the combined
result is 7 while the sequential `u64` sum of the input is 10. -/
theorem claim_C9_false_sharing_bug :
    avoid_false_sharing (List.replicate 10 1) 3 = 7 ∧
    sumU64 (List.replicate 10 1) = 10 ∧
    ¬ (slotAssignments (List.replicate 10 1) 3).Nodup := by decide

/-- C7: brightness with factor 2.0 turns `[10,20,30,255, 200,210,220,0]`
into exactly `[20,40,60,255, 255,255,255,0]`: RGB channels scaled and
clamped to 255, alpha bytes untouched -- both for the in-place variant
and for `WasmImageProcessor::adjust_brightness`. -/
theorem claim_C7_brightness_concrete :
    parallel_brightness_adjustment 2 [10, 20, 30, 255, 200, 210, 220, 0] =
      [20, 40, 60, 255, 255, 255, 255, 0] ∧
    adjust_brightness 2 [10, 20, 30, 255, 200, 210, 220, 0] =
      Except.ok [20, 40, 60, 255, 255, 255, 255, 0] := by
  constructor
  · norm_num [parallel_brightness_adjustment, adjust_channel, f32_as_u8]
    omega
  · norm_num [adjust_brightness, adjust_brightness_pixels,
      adjust_channel_minmax, f32_as_u8]
    omega

/-- Length of the transpose output buffer. -/
theorem length_parallel_matrix_transpose (m : List ℚ) (rows cols : Nat) :
    (parallel_matrix_transpose m rows cols).length = rows * cols := by
  simp [parallel_matrix_transpose]

/-- Entry read of the transpose output buffer. -/
theorem getD_parallel_matrix_transpose (m : List ℚ) (rows cols idx : Nat)
    (h : idx < rows * cols) :
    (parallel_matrix_transpose m rows cols).getD idx 0 =
      m.getD ((idx % rows) * cols + idx / rows) 0 := by
  rw [List.getD_eq_getElem _ _ (by simpa [parallel_matrix_transpose] using h)]
  simp [parallel_matrix_transpose]

/-- C5: for every rectangular matrix with `r ≥ 1` rows and `c ≥ 1`
columns stored in a buffer of length `r * c`, transposing twice is the
identity. -/
theorem claim_C5_transpose_involution (m : List ℚ) (r c : Nat)
    (hr : 0 < r) (hc : 0 < c) (hm : m.length = r * c) :
    parallel_matrix_transpose (parallel_matrix_transpose m r c) c r = m := by
  apply List.ext_getElem
  · simp [length_parallel_matrix_transpose, hm, Nat.mul_comm]
  · intro idx h1 h2
    have hidx : idx < c * r := by
      simpa [length_parallel_matrix_transpose] using h1
    have hi : idx % c < c := Nat.mod_lt _ hc
    have hj : idx / c < r := by
      rw [Nat.div_lt_iff_lt_mul hc]; omega
    have hinner : idx % c * r + idx / c < r * c := by
      calc idx % c * r + idx / c < idx % c * r + r := by omega
        _ = (idx % c + 1) * r := by ring
        _ ≤ c * r := Nat.mul_le_mul_right r (by omega)
        _ = r * c := Nat.mul_comm c r
    rw [← List.getD_eq_getElem _ 0 h1, ← List.getD_eq_getElem _ 0 h2,
      getD_parallel_matrix_transpose _ _ _ _ (by omega),
      getD_parallel_matrix_transpose _ _ _ _ hinner]
    have hmod : (idx % c * r + idx / c) % r = idx / c := by
      rw [Nat.mul_comm (idx % c) r, Nat.mul_add_mod, Nat.mod_eq_of_lt hj]
    have hdiv : (idx % c * r + idx / c) / r = idx % c := by
      rw [Nat.mul_comm (idx % c) r, Nat.mul_add_div hr, Nat.div_eq_of_lt hj,
        Nat.add_zero]
    rw [hmod, hdiv, Nat.mul_comm (idx / c) c, Nat.div_add_mod idx c]

/-- Witness for C5 on the concrete 2-by-2 matrix `[1, 2, 3, 4]`. -/
theorem claim_C5_transpose_involution_witness :
    parallel_matrix_transpose (parallel_matrix_transpose [1, 2, 3, 4] 2 2) 2 2 =
      [1, 2, 3, 4] :=
  claim_C5_transpose_involution [1, 2, 3, 4] 2 2 (by decide) (by decide) (by simp)

/-- Left folds of pointwise additions compute the range sum. -/
theorem foldl_range_add (g : Nat → ℚ) (n : Nat) :
    (List.range n).foldl (fun s k => s + g k) 0 = ∑ k ∈ Finset.range n, g k := by
  induction n with
  | zero => simp
  | succ n ih => rw [List.range_succ, List.foldl_append, Finset.sum_range_succ, ih]; rfl

/-- C3: `matrix_multiply` rejects `a_cols ≠ b_rows` (and any buffer whose
length disagrees with its declared shape) with an error before any
output buffer exists; with compatible dimensions and `b_cols ≥ 1` (for
`b_cols = 0` the Rust code panics inside `par_chunks_mut(0)` and never
returns) it returns a buffer of length `a_rows * b_cols` whose entry
`(i, j)` is the dot product
`Σ_{k < a_cols} a[i * a_cols + k] * b[k * b_cols + j]`. -/
theorem claim_C3_matrix_multiply (a : List ℚ) (a_rows a_cols : Nat)
    (b : List ℚ) (b_rows b_cols : Nat) :
    (a_cols ≠ b_rows →
      ∃ e, parallel_matrix_multiply a a_rows a_cols b b_rows b_cols =
        Except.error e) ∧
    (a.length ≠ a_rows * a_cols ∨ b.length ≠ b_rows * b_cols →
      ∃ e, parallel_matrix_multiply a a_rows a_cols b b_rows b_cols =
        Except.error e) ∧
    (0 < b_cols →
      a_cols = b_rows → a.length = a_rows * a_cols → b.length = b_rows * b_cols →
      ∃ res, parallel_matrix_multiply a a_rows a_cols b b_rows b_cols =
          Except.ok res ∧
        res.length = a_rows * b_cols ∧
        ∀ i j, i < a_rows → j < b_cols →
          res.getD (i * b_cols + j) 0 =
            ∑ k ∈ Finset.range a_cols,
              a.getD (i * a_cols + k) 0 * b.getD (k * b_cols + j) 0) := by
  refine ⟨fun h => ⟨"Matrix dimensions incompatible for multiplication",
      by simp [parallel_matrix_multiply, h]⟩,
    fun h => ?_, fun hb0 h1 h2 h3 => ?_⟩
  · by_cases hcb : a_cols = b_rows
    · subst hcb
      rcases h with h | h
      · exact ⟨"Matrix data length does not match dimensions",
          by simp [parallel_matrix_multiply, h]⟩
      · exact ⟨"Matrix data length does not match dimensions",
          by simp [parallel_matrix_multiply, h]⟩
    · exact ⟨"Matrix dimensions incompatible for multiplication",
        by simp [parallel_matrix_multiply, hcb]⟩
  · simp only [parallel_matrix_multiply]
    rw [if_neg (not_not_intro h1), if_neg (by simp [h2, h3])]
    refine ⟨_, rfl, by simp, fun i j hi hj => ?_⟩
    have hb : 0 < b_cols := by omega
    have hlt : i * b_cols + j < a_rows * b_cols := by
      calc i * b_cols + j < i * b_cols + b_cols := by omega
        _ = (i + 1) * b_cols := by ring
        _ ≤ a_rows * b_cols := Nat.mul_le_mul_right b_cols (by omega)
    rw [List.getD_eq_getElem _ _ (by simpa using hlt)]
    rw [List.getElem_map, List.getElem_range]
    have hdivX : (i * b_cols + j) / b_cols = i := by
      rw [Nat.mul_comm i b_cols, Nat.mul_add_div hb, Nat.div_eq_of_lt hj,
        Nat.add_zero]
    have hmodX : (i * b_cols + j) % b_cols = j := by
      rw [Nat.mul_comm i b_cols, Nat.mul_add_mod, Nat.mod_eq_of_lt hj]
    simp only [hdivX, hmodX]
    exact foldl_range_add
      (fun k => a.getD (i * a_cols + k) 0 * b.getD (k * b_cols + j) 0) a_cols

/-- Witness for C3: the 1-by-2 times 2-by-1 product of `[1, 2]` and
`[3, 4]` succeeds with an output of the specified shape and entries. -/
theorem claim_C3_matrix_multiply_witness :
    ∃ res, parallel_matrix_multiply [1, 2] 1 2 [3, 4] 2 1 = Except.ok res ∧
      res.length = 1 * 1 ∧
      ∀ i j, i < 1 → j < 1 →
        res.getD (i * 1 + j) 0 =
          ∑ k ∈ Finset.range 2,
            ([1, 2] : List ℚ).getD (i * 2 + k) 0 *
              ([3, 4] : List ℚ).getD (k * 1 + j) 0 :=
  (claim_C3_matrix_multiply [1, 2] 1 2 [3, 4] 2 1).2.2 (by decide) rfl
    (by simp) (by simp)

/-- The saturating cast never exceeds 255. -/
theorem f32_as_u8_le (x : ℚ) : f32_as_u8 x ≤ 255 :=
  min_le_left 255 (Int.toNat ⌊x⌋)

/-- The luminance of an already-gray pixel `(q, q, q)` with `q ≤ 255` is
`q` itself: the coefficients sum to 1 exactly in rational arithmetic. -/
theorem luma_gray_fixed (q : Nat) (hq : q ≤ 255) :
    f32_as_u8 (0.299 * (q : ℚ) + 0.587 * (q : ℚ) + 0.114 * (q : ℚ)) = q := by
  have hsum : (0.299 : ℚ) * q + 0.587 * q + 0.114 * q = (q : ℚ) := by ring_nf
  rw [f32_as_u8, hsum, Int.floor_natCast, Int.toNat_natCast]
  exact min_eq_right hq

/-- Grayscale conversion preserves the buffer length. -/
theorem parallel_grayscale_conversion_length (l : List Nat) :
    (parallel_grayscale_conversion l).length = l.length := by
  induction l using parallel_grayscale_conversion.induct with
  | case1 r g b a rest ih => simp [parallel_grayscale_conversion, ih]
  | case2 rest h => simp [parallel_grayscale_conversion]

/-- Grayscale conversion is idempotent: a second pass recomputes the
luminance of `(gray, gray, gray)`, which is `gray` again. -/
theorem parallel_grayscale_conversion_idem (l : List Nat) :
    parallel_grayscale_conversion (parallel_grayscale_conversion l) =
      parallel_grayscale_conversion l := by
  induction l using parallel_grayscale_conversion.induct with
  | case1 r g b a rest ih =>
    simp only [parallel_grayscale_conversion]
    rw [luma_gray_fixed _ (f32_as_u8_le _), ih]
  | case2 rest h => simp [parallel_grayscale_conversion]

/-- Grayscale conversion preserves every alpha byte (offset 3 of each
4-byte pixel) exactly. -/
theorem parallel_grayscale_conversion_alpha (l : List Nat) :
    ∀ i, 4 * i + 3 < l.length →
      (parallel_grayscale_conversion l).getD (4 * i + 3) 0 =
        l.getD (4 * i + 3) 0 := by
  induction l using parallel_grayscale_conversion.induct with
  | case1 r g b a rest ih =>
    intro i hi
    match i with
    | 0 => simp [parallel_grayscale_conversion]
    | n + 1 =>
      have h4 : 4 * (n + 1) + 3 = 4 * n + 3 + 1 + 1 + 1 + 1 := by ring
      simp only [parallel_grayscale_conversion, h4, List.getD_cons_succ]
      exact ih n (by simp at hi; omega)
  | case2 rest h => intro i hi; simp [parallel_grayscale_conversion]

/-- Grayscale conversion leaves the trailing `len % 4` bytes (the
remainder not covered by `par_chunks_exact_mut(4)`) untouched. -/
theorem parallel_grayscale_conversion_drop (l : List Nat) :
    (parallel_grayscale_conversion l).drop (4 * (l.length / 4)) =
      l.drop (4 * (l.length / 4)) := by
  induction l using parallel_grayscale_conversion.induct with
  | case1 r g b a rest ih =>
    have hlen : (r :: g :: b :: a :: rest).length = rest.length + 4 := by simp
    have hdiv : (rest.length + 4) / 4 = rest.length / 4 + 1 := by omega
    have h4 : 4 * (rest.length / 4 + 1) = 4 * (rest.length / 4) + 1 + 1 + 1 + 1 := by
      ring
    simp only [parallel_grayscale_conversion, hlen, hdiv, h4, List.drop_succ_cons]
    exact ih
  | case2 rest h => simp [parallel_grayscale_conversion]

/-- Brightness adjustment preserves the buffer length. -/
theorem parallel_brightness_adjustment_length (factor : ℚ) (l : List Nat) :
    (parallel_brightness_adjustment factor l).length = l.length := by
  induction l using parallel_brightness_adjustment.induct factor with
  | case1 r g b a rest ih => simp [parallel_brightness_adjustment, ih]
  | case2 rest h => simp [parallel_brightness_adjustment]

/-- Brightness adjustment leaves the trailing `len % 4` bytes untouched. -/
theorem parallel_brightness_adjustment_drop (factor : ℚ) (l : List Nat) :
    (parallel_brightness_adjustment factor l).drop (4 * (l.length / 4)) =
      l.drop (4 * (l.length / 4)) := by
  induction l using parallel_brightness_adjustment.induct factor with
  | case1 r g b a rest ih =>
    have hlen : (r :: g :: b :: a :: rest).length = rest.length + 4 := by simp
    have hdiv : (rest.length + 4) / 4 = rest.length / 4 + 1 := by omega
    have h4 : 4 * (rest.length / 4 + 1) = 4 * (rest.length / 4) + 1 + 1 + 1 + 1 := by
      ring
    simp only [parallel_brightness_adjustment, hlen, hdiv, h4, List.drop_succ_cons]
    exact ih
  | case2 rest h => simp [parallel_brightness_adjustment]

/-- C6: on every valid RGBA buffer (length divisible by 4) the grayscale
operation succeeds; applying it a second time to its own output succeeds
and changes nothing (exact idempotence in the rational embedding of the
`f32` luminance arithmetic), and every alpha byte is preserved exactly. -/
theorem claim_C6_grayscale_idempotent_alpha (rgba : List Nat)
    (h4 : rgba.length % 4 = 0) :
    ∃ once, to_grayscale rgba = Except.ok once ∧
      to_grayscale once = Except.ok once ∧
      ∀ i, 4 * i + 3 < rgba.length →
        once.getD (4 * i + 3) 0 = rgba.getD (4 * i + 3) 0 := by
  refine ⟨parallel_grayscale_conversion rgba, ?_, ?_, ?_⟩
  · simp [to_grayscale, h4]
  · simp [to_grayscale, parallel_grayscale_conversion_length, h4,
      parallel_grayscale_conversion_idem]
  · exact parallel_grayscale_conversion_alpha rgba

/-- Witness for C6 on the concrete two-pixel buffer
`[10, 20, 30, 255, 200, 210, 220, 0]`. -/
theorem claim_C6_grayscale_witness :
    ∃ once, to_grayscale [10, 20, 30, 255, 200, 210, 220, 0] = Except.ok once ∧
      to_grayscale once = Except.ok once ∧
      ∀ i, 4 * i + 3 < ([10, 20, 30, 255, 200, 210, 220, 0] : List Nat).length →
        once.getD (4 * i + 3) 0 =
          ([10, 20, 30, 255, 200, 210, 220, 0] : List Nat).getD (4 * i + 3) 0 :=
  claim_C6_grayscale_idempotent_alpha [10, 20, 30, 255, 200, 210, 220, 0]
    (by decide)

/-- C8 (amended): when the input length is not divisible by 4, the
buffer-returning operations `to_grayscale` and `adjust_brightness` fail
fast with an error and produce no output buffer, while the in-place
operations `parallel_grayscale_conversion` and
`parallel_brightness_adjustment` perform no length check at all: they
transform the leading complete pixels and leave the trailing
`len % 4` bytes unchanged (length preserved). -/
theorem claim_C8_invalid_length (rgba : List Nat) (factor : ℚ)
    (h4 : rgba.length % 4 ≠ 0) :
    (∃ e, to_grayscale rgba = Except.error e) ∧
    (∃ e, adjust_brightness factor rgba = Except.error e) ∧
    (parallel_grayscale_conversion rgba).length = rgba.length ∧
    (parallel_grayscale_conversion rgba).drop (4 * (rgba.length / 4)) =
      rgba.drop (4 * (rgba.length / 4)) ∧
    (parallel_brightness_adjustment factor rgba).length = rgba.length ∧
    (parallel_brightness_adjustment factor rgba).drop (4 * (rgba.length / 4)) =
      rgba.drop (4 * (rgba.length / 4)) :=
  ⟨⟨"RGBA data length must be divisible by 4", by simp [to_grayscale, h4]⟩,
    ⟨"RGBA data length must be divisible by 4", by simp [adjust_brightness, h4]⟩,
    parallel_grayscale_conversion_length rgba,
    parallel_grayscale_conversion_drop rgba,
    parallel_brightness_adjustment_length factor rgba,
    parallel_brightness_adjustment_drop factor rgba⟩

/-- Witness for the amended C8 at the length-5 buffer `[1, 2, 3, 4, 5]`
with brightness factor 2. -/
theorem claim_C8_invalid_length_witness :
    (∃ e, to_grayscale [1, 2, 3, 4, 5] = Except.error e) ∧
    (∃ e, adjust_brightness 2 [1, 2, 3, 4, 5] = Except.error e) ∧
    (parallel_grayscale_conversion [1, 2, 3, 4, 5]).length =
      ([1, 2, 3, 4, 5] : List Nat).length ∧
    (parallel_grayscale_conversion [1, 2, 3, 4, 5]).drop
        (4 * (([1, 2, 3, 4, 5] : List Nat).length / 4)) =
      ([1, 2, 3, 4, 5] : List Nat).drop
        (4 * (([1, 2, 3, 4, 5] : List Nat).length / 4)) ∧
    (parallel_brightness_adjustment 2 [1, 2, 3, 4, 5]).length =
      ([1, 2, 3, 4, 5] : List Nat).length ∧
    (parallel_brightness_adjustment 2 [1, 2, 3, 4, 5]).drop
        (4 * (([1, 2, 3, 4, 5] : List Nat).length / 4)) =
      ([1, 2, 3, 4, 5] : List Nat).drop
        (4 * (([1, 2, 3, 4, 5] : List Nat).length / 4)) :=
  claim_C8_invalid_length [1, 2, 3, 4, 5] 2 (by decide)

/-- C8 counterexample against the claim as stated: the in-place
`parallel_grayscale_conversion` has no error outcome in its signature
and applies no length check; on the length-5 buffer `[10, 20, 30, 255, 9]`
it rewrites the first four bytes to `[18, 18, 18, 255]` instead of
failing fast and leaving every byte unmodified. -/
theorem claim_C8_counterexample :
    ([10, 20, 30, 255, 9] : List Nat).length % 4 ≠ 0 ∧
    parallel_grayscale_conversion [10, 20, 30, 255, 9] = [18, 18, 18, 255, 9] ∧
    parallel_grayscale_conversion [10, 20, 30, 255, 9] ≠ [10, 20, 30, 255, 9] := by
  refine ⟨by decide, ?_, ?_⟩ <;>
    · norm_num [parallel_grayscale_conversion, f32_as_u8]
      omega

/-- Swapping preserves the length. -/
theorem length_listSwap (l : List Int) (i j : Nat) :
    (listSwap l i j).length = l.length := by
  simp [listSwap]

/-- Swapping two in-range positions is a permutation. -/
theorem listSwap_perm (l : List Int) (i j : Nat)
    (hi : i < l.length) (hj : j < l.length) : (listSwap l i j).Perm l := by
  rw [List.perm_iff_count]
  intro a
  have hj1 : j < (l.set i (l.getD j 0)).length := by simpa using hj
  rw [listSwap, List.count_set _ _ _ _ hj1, List.count_set _ _ _ _ hi]
  simp only [List.getElem_set, List.getD_eq_getElem l 0 hi,
    List.getD_eq_getElem l 0 hj, ite_self, beq_iff_eq]
  have hcnti : l[i] = a → 0 < l.count a := fun h =>
    List.count_pos_iff.mpr (h ▸ List.getElem_mem hi)
  have hcntj : l[j] = a → 0 < l.count a := fun h =>
    List.count_pos_iff.mpr (h ▸ List.getElem_mem hj)
  split_ifs with h1 h2 h2
  · omega
  · have := hcnti h1; omega
  · have := hcntj h2; omega
  · omega

/-- Reading the first swapped position yields the other element. -/
theorem getD_listSwap_fst (l : List Int) (i j : Nat)
    (hi : i < l.length) (hj : j < l.length) :
    (listSwap l i j).getD i 0 = l.getD j 0 := by
  have hi2 : i < ((l.set i (l.getD j 0)).set j (l.getD i 0)).length := by
    simpa using hi
  by_cases hij : i = j
  · subst hij
    rw [listSwap, List.getD_eq_getElem _ 0 hi2, List.getElem_set_self,
      List.getD_eq_getElem l 0 hi]
  · rw [listSwap, List.getD_eq_getElem _ 0 hi2,
      List.getElem_set_ne (fun h => hij h.symm),
      List.getElem_set_self, List.getD_eq_getElem l 0 hj]

/-- Reading the second swapped position yields the first element. -/
theorem getD_listSwap_snd (l : List Int) (i j : Nat)
    (hi : i < l.length) (hj : j < l.length) :
    (listSwap l i j).getD j 0 = l.getD i 0 := by
  have hj2 : j < ((l.set i (l.getD j 0)).set j (l.getD i 0)).length := by
    simpa using hj
  rw [listSwap, List.getD_eq_getElem _ 0 hj2, List.getElem_set_self,
    List.getD_eq_getElem l 0 hi]

/-- Positions other than the two swapped ones are unchanged. -/
theorem getD_listSwap_other (l : List Int) (i j k : Nat)
    (hki : k ≠ i) (hkj : k ≠ j) :
    (listSwap l i j).getD k 0 = l.getD k 0 := by
  rw [listSwap, List.getD_eq_getElem?_getD,
    List.getElem?_set_ne (fun h => hkj h.symm),
    List.getElem?_set_ne (fun h => hki h.symm),
    List.getD_eq_getElem?_getD]

/-- Complete invariant of the Lomuto scan loop: assuming `store ≤ i ≤
len - 1`, that everything before `store` is at most the pivot (the last
element) and everything in `[store, i)` is greater, the loop returns a
permutation of its input of the same length with the pivot still in the
last slot, and a store index `s ∈ [store, len - 1]` such that everything
before `s` is at most the pivot and everything in `[s, len - 1)` is
greater. -/
theorem lomutoLoop_spec : ∀ (data : List Int) (i store : Nat),
    store ≤ i → i ≤ data.length - 1 →
    (∀ k, k < store → data.getD k 0 ≤ data.getD (data.length - 1) 0) →
    (∀ k, store ≤ k → k < i → data.getD (data.length - 1) 0 < data.getD k 0) →
    (lomutoLoop data i store).1.length = data.length ∧
    (lomutoLoop data i store).1.Perm data ∧
    (lomutoLoop data i store).1.getD (data.length - 1) 0 =
      data.getD (data.length - 1) 0 ∧
    store ≤ (lomutoLoop data i store).2 ∧
    (lomutoLoop data i store).2 ≤ data.length - 1 ∧
    (∀ k, k < (lomutoLoop data i store).2 →
      (lomutoLoop data i store).1.getD k 0 ≤ data.getD (data.length - 1) 0) ∧
    (∀ k, (lomutoLoop data i store).2 ≤ k → k < data.length - 1 →
      data.getD (data.length - 1) 0 < (lomutoLoop data i store).1.getD k 0) := by
  intro data i store
  induction data, i, store using lomutoLoop.induct with
  | case1 data i store h1 h2 ih =>
    intro hsi hil hpre hmid
    have hi_lt : i < data.length := by omega
    have hstore_lt : store < data.length := by omega
    have hswap_len : (listSwap data i store).length = data.length :=
      length_listSwap data i store
    have hpv : (listSwap data i store).getD (data.length - 1) 0 =
        data.getD (data.length - 1) 0 :=
      getD_listSwap_other data i store (data.length - 1) (by omega) (by omega)
    have hstep : lomutoLoop data i store =
        lomutoLoop (listSwap data i store) (i + 1) (store + 1) := by
      rw [lomutoLoop, dif_pos h1, if_pos h2]
    have hpre2 : ∀ k, k < store + 1 → (listSwap data i store).getD k 0 ≤
        (listSwap data i store).getD ((listSwap data i store).length - 1) 0 := by
      intro k hk
      rw [hswap_len, hpv]
      rcases Nat.lt_or_ge k store with hks | hks
      · rw [getD_listSwap_other data i store k (by omega) (by omega)]
        exact hpre k hks
      · have hkeq : k = store := by omega
        rw [hkeq, getD_listSwap_snd data i store hi_lt hstore_lt]
        exact h2
    have hmid2 : ∀ k, store + 1 ≤ k → k < i + 1 →
        (listSwap data i store).getD ((listSwap data i store).length - 1) 0 <
        (listSwap data i store).getD k 0 := by
      intro k hk1 hk2
      rw [hswap_len, hpv]
      rcases Nat.lt_or_ge k i with hki | hki
      · rw [getD_listSwap_other data i store k (by omega) (by omega)]
        exact hmid k (by omega) hki
      · have hkeq : k = i := by omega
        rw [hkeq, getD_listSwap_fst data i store hi_lt hstore_lt]
        exact hmid store (by omega) (by omega)
    obtain ⟨c1, c2, c3, c4, c5, c6, c7⟩ :=
      ih (by omega) (by rw [hswap_len]; omega) hpre2 hmid2
    rw [hswap_len] at c1 c3 c5 c6 c7
    rw [hpv] at c3 c6 c7
    rw [hstep]
    refine ⟨c1, c2.trans (listSwap_perm data i store hi_lt hstore_lt), c3,
      by omega, c5, c6, c7⟩
  | case2 data i store h1 h2 ih =>
    intro hsi hil hpre hmid
    have hstep : lomutoLoop data i store = lomutoLoop data (i + 1) store := by
      rw [lomutoLoop, dif_pos h1, if_neg h2]
    have hmid2 : ∀ k, store ≤ k → k < i + 1 →
        data.getD (data.length - 1) 0 < data.getD k 0 := by
      intro k hk1 hk2
      rcases Nat.lt_or_ge k i with hki | hki
      · exact hmid k hk1 hki
      · have hkeq : k = i := by omega
        rw [hkeq]
        exact not_le.mp h2
    obtain ⟨c1, c2, c3, c4, c5, c6, c7⟩ := ih (by omega) (by omega) hpre hmid2
    rw [hstep]
    exact ⟨c1, c2, c3, c4, c5, c6, c7⟩
  | case3 data i store h1 =>
    intro hsi hil hpre hmid
    have hstep : lomutoLoop data i store = (data, store) := by
      rw [lomutoLoop, dif_neg h1]
    rw [hstep]
    exact ⟨rfl, List.Perm.refl data, rfl, le_refl store, by omega, hpre,
      fun k hk1 hk2 => hmid k hk1 (by omega)⟩

/-- Full postcondition of `partition` on a non-empty slice: the result
is a permutation of the input of the same length, the returned index `p`
is within bounds, the element now at `p` is the original middle element
(the chosen pivot), everything before `p` is at most the pivot and
everything after `p` is strictly greater. -/
theorem partition_spec (data : List Int) (hne : data ≠ []) :
    (partition data).1.Perm data ∧
    (partition data).1.length = data.length ∧
    (partition data).2 < data.length ∧
    (partition data).1.getD (partition data).2 0 =
      data.getD (data.length / 2) 0 ∧
    (∀ k, k < (partition data).2 →
      (partition data).1.getD k 0 ≤
        (partition data).1.getD (partition data).2 0) ∧
    (∀ k, (partition data).2 < k → k < data.length →
      (partition data).1.getD (partition data).2 0 <
        (partition data).1.getD k 0) := by
  have hlen : 0 < data.length := List.length_pos.mpr hne
  have hmid_lt : data.length / 2 < data.length := Nat.div_lt_self hlen (by omega)
  have hlast_lt : data.length - 1 < data.length := by omega
  have hpart : partition data =
      (listSwap (lomutoLoop (listSwap data (data.length / 2) (data.length - 1)) 0 0).1
        (lomutoLoop (listSwap data (data.length / 2) (data.length - 1)) 0 0).2
        (data.length - 1),
       (lomutoLoop (listSwap data (data.length / 2) (data.length - 1)) 0 0).2) := rfl
  set d := listSwap data (data.length / 2) (data.length - 1) with hd
  have hdlen : d.length = data.length := length_listSwap data _ _
  have hdperm : d.Perm data := listSwap_perm data _ _ hmid_lt hlast_lt
  have hdpv : d.getD (data.length - 1) 0 = data.getD (data.length / 2) 0 :=
    getD_listSwap_snd data _ _ hmid_lt hlast_lt
  obtain ⟨c1, c2, c3, c4, c5, c6, c7⟩ :=
    lomutoLoop_spec d 0 0 (le_refl 0) (by omega)
      (fun k hk => absurd hk (Nat.not_lt_zero k))
      (fun k hk1 hk2 => absurd hk2 (Nat.not_lt_zero k))
  rw [hdlen] at c1 c3 c5 c6 c7
  rw [hdpv] at c3 c6 c7
  set A := (lomutoLoop d 0 0).1 with hA
  set s := (lomutoLoop d 0 0).2 with hs
  have hsA : s < A.length := by omega
  have hlastA : data.length - 1 < A.length := by omega
  have hfin_len : (listSwap A s (data.length - 1)).length = data.length := by
    rw [length_listSwap, c1]
  have hfin_pv : (listSwap A s (data.length - 1)).getD s 0 =
      data.getD (data.length / 2) 0 := by
    rw [getD_listSwap_fst A s (data.length - 1) hsA hlastA, c3]
  rw [hpart]
  refine ⟨((listSwap_perm A s (data.length - 1) hsA hlastA).trans c2).trans hdperm,
    hfin_len, by omega, hfin_pv, ?_, ?_⟩
  · intro k hk
    rw [hfin_pv,
      getD_listSwap_other A s (data.length - 1) k (by omega) (by omega)]
    exact c6 k hk
  · intro k hk1 hk2
    rw [hfin_pv]
    rcases Nat.lt_or_ge k (data.length - 1) with hklt | hkge
    · rw [getD_listSwap_other A s (data.length - 1) k (by omega) (by omega)]
      exact c7 k (by omega) hklt
    · have hkeq : k = data.length - 1 := by omega
      rw [hkeq, getD_listSwap_snd A s (data.length - 1) hsA hlastA]
      exact c7 s (le_refl s) (by omega)

/-- The sequential sort is a permutation of its input. -/
theorem sort_unstable_perm (l : List Int) : (sort_unstable l).Perm l :=
  List.mergeSort_perm l _

/-- The sequential sort is non-decreasing. -/
theorem sort_unstable_sorted (l : List Int) :
    (sort_unstable l).Sorted (· ≤ ·) := by
  have h := @List.sorted_mergeSort Int (fun a b : Int => a ≤ b)
    (fun a b c hab hbc => by
      simp only [decide_eq_true_eq] at *
      exact le_trans hab hbc)
    (fun a b => by
      simp only [Bool.or_eq_true, decide_eq_true_eq]
      exact le_total a b)
    l
  exact h.imp (fun hab => by simpa using hab)

/-- Permutation and sortedness of the fuelled quicksort, for any
sufficient fuel. -/
theorem parallel_quicksortFuel_spec : ∀ (fuel : Nat) (data : List Int),
    data.length ≤ fuel →
    (parallel_quicksortFuel fuel data).Perm data ∧
    (parallel_quicksortFuel fuel data).Sorted (· ≤ ·) := by
  intro fuel
  induction fuel with
  | zero =>
    intro data h
    have hnil : data = [] := List.length_eq_zero.mp (by omega)
    subst hnil
    exact ⟨List.Perm.refl _, by simp [parallel_quicksortFuel]⟩
  | succ fuel ih =>
    intro data hfuel
    by_cases h1000 : data.length ≤ 1000
    · have hstep : parallel_quicksortFuel (fuel + 1) data = sort_unstable data := by
        simp only [parallel_quicksortFuel]
        rw [if_pos h1000]
      rw [hstep]
      exact ⟨sort_unstable_perm data, sort_unstable_sorted data⟩
    · have hne : data ≠ [] := by
        intro h
        rw [h] at h1000
        simp at h1000
      obtain ⟨p1, p2, p3, p4, p5, p6⟩ := partition_spec data hne
      have hlen2 : ¬ data.length ≤ 1 := by omega
      set arr := (partition data).1 with harr
      set p := (partition data).2 with hp
      have hstep : parallel_quicksortFuel (fuel + 1) data =
          parallel_quicksortFuel fuel (arr.take p) ++
            arr.getD p 0 :: parallel_quicksortFuel fuel (arr.drop (p + 1)) := by
        simp only [parallel_quicksortFuel]
        rw [if_neg h1000, if_neg hlen2]
      have htake_len : (arr.take p).length = p := by
        rw [List.length_take]; omega
      have hdrop_len : (arr.drop (p + 1)).length = data.length - (p + 1) := by
        rw [List.length_drop, p2]
      obtain ⟨ihL_perm, ihL_sorted⟩ := ih (arr.take p) (by omega)
      obtain ⟨ihR_perm, ihR_sorted⟩ := ih (arr.drop (p + 1)) (by omega)
      have hp_arr : p < arr.length := by omega
      have hmemL : ∀ x ∈ parallel_quicksortFuel fuel (arr.take p),
          x ≤ arr.getD p 0 := by
        intro x hx
        obtain ⟨n, hn, hval⟩ := List.mem_iff_getElem.mp (ihL_perm.mem_iff.mp hx)
        have hnp : n < p := by
          rw [htake_len] at hn
          exact hn
        have hn_arr : n < arr.length := by omega
        rw [← hval, List.getElem_take, ← List.getD_eq_getElem arr 0 hn_arr]
        exact p5 n hnp
      have hmemR : ∀ x ∈ parallel_quicksortFuel fuel (arr.drop (p + 1)),
          arr.getD p 0 < x := by
        intro x hx
        obtain ⟨n, hn, hval⟩ := List.mem_iff_getElem.mp (ihR_perm.mem_iff.mp hx)
        have hn_arr : p + 1 + n < arr.length := by
          rw [hdrop_len] at hn
          omega
        rw [← hval, List.getElem_drop, ← List.getD_eq_getElem arr 0 hn_arr]
        exact p6 (p + 1 + n) (by omega) (by omega)
      constructor
      · rw [hstep]
        have hdecomp : arr.take p ++ arr.getD p 0 :: arr.drop (p + 1) = arr := by
          rw [List.getD_eq_getElem arr 0 hp_arr, ← List.drop_eq_getElem_cons hp_arr]
          exact List.take_append_drop p arr
        have hmidperm :
            (arr.take p ++ arr.getD p 0 :: arr.drop (p + 1)).Perm data := by
          rw [hdecomp]
          exact p1
        exact (ihL_perm.append (ihR_perm.cons _)).trans hmidperm
      · rw [hstep]
        refine List.pairwise_append.mpr ⟨ihL_sorted, ?_, ?_⟩
        · exact List.pairwise_cons.mpr
            ⟨fun y hy => le_of_lt (hmemR y hy), ihR_sorted⟩
        · intro x hx y hy
          have hxp := hmemL x hx
          rcases List.mem_cons.mp hy with rfl | hy2
          · exact hxp
          · exact le_trans hxp (le_of_lt (hmemR y hy2))

/-- C2: `parallel_quicksort` returns a permutation of its input that is
non-decreasing, for every input (already-sorted, reverse-sorted,
all-equal and empty inputs included); and on inputs of length at most
the sequential threshold 1000 it coincides with the sequential unstable
sort. -/
theorem claim_C2_quicksort (data : List Int) :
    (parallel_quicksort data).Perm data ∧
    (parallel_quicksort data).Sorted (· ≤ ·) ∧
    (data.length ≤ 1000 → parallel_quicksort data = sort_unstable data) := by
  obtain ⟨hperm, hsorted⟩ :=
    parallel_quicksortFuel_spec data.length data (le_refl _)
  refine ⟨hperm, hsorted, fun h => ?_⟩
  rw [parallel_quicksort]
  cases hlen : data.length with
  | zero =>
    have hnil : data = [] := List.length_eq_zero.mp hlen
    subst hnil
    simp [parallel_quicksortFuel, sort_unstable]
  | succ n =>
    simp only [parallel_quicksortFuel]
    rw [if_pos h]

/-- Witness for C2 at the concrete input `[3, 1, 2]`. -/
theorem claim_C2_quicksort_witness :
    (parallel_quicksort [3, 1, 2]).Perm [3, 1, 2] ∧
    (parallel_quicksort [3, 1, 2]).Sorted (· ≤ ·) ∧
    parallel_quicksort [3, 1, 2] = sort_unstable [3, 1, 2] :=
  ⟨(claim_C2_quicksort [3, 1, 2]).1, (claim_C2_quicksort [3, 1, 2]).2.1,
    (claim_C2_quicksort [3, 1, 2]).2.2 (by decide)⟩

/-- C4: on every non-empty slice `partition` (pivot = middle element,
swapped to the end, Lomuto left-to-right scan, final swap into the store
index) returns a permutation of the input together with an in-bounds
index `p` such that the element at `p` is the original middle element,
every element before `p` is at most it, and every element after `p` is
strictly greater. -/
theorem claim_C4_partition (data : List Int) (hne : data ≠ []) :
    (partition data).1.Perm data ∧
    (partition data).2 < data.length ∧
    (partition data).1.getD (partition data).2 0 =
      data.getD (data.length / 2) 0 ∧
    (∀ k, k < (partition data).2 →
      (partition data).1.getD k 0 ≤
        (partition data).1.getD (partition data).2 0) ∧
    (∀ k, (partition data).2 < k → k < data.length →
      (partition data).1.getD (partition data).2 0 <
        (partition data).1.getD k 0) := by
  obtain ⟨p1, p2, p3, p4, p5, p6⟩ := partition_spec data hne
  exact ⟨p1, p3, p4, p5, p6⟩

/-- Witness for C4 at the concrete input `[3, 1, 2]` (pivot 1, the
original middle element, lands at index 0 of `[1, 2, 3]`). -/
theorem claim_C4_partition_witness :
    (partition [3, 1, 2]).1.Perm [3, 1, 2] ∧
    (partition [3, 1, 2]).2 < ([3, 1, 2] : List Int).length ∧
    (partition [3, 1, 2]).1.getD (partition [3, 1, 2]).2 0 =
      ([3, 1, 2] : List Int).getD (([3, 1, 2] : List Int).length / 2) 0 :=
  ⟨(claim_C4_partition [3, 1, 2] (by decide)).1,
    (claim_C4_partition [3, 1, 2] (by decide)).2.1,
    (claim_C4_partition [3, 1, 2] (by decide)).2.2.1⟩
